import Mathlib

/-!
Verification of the HAMT hash-bit extractor (`src/ipld/hamt/src/hash_bits.rs`)
and of the determinism properties of the HAMT trie, against the repository's
specification.

Machine integers are modelled as `Nat` with an explicit `% 2 ^ 32` exactly at
the points where the Rust code performs a cast or where fixed-width wraparound
can change the value.  A Rust panic (out-of-bounds slice indexing, or the
debug-mode overflow of an unsigned subtraction) is modelled as `none`.
-/


namespace HamtSpec

/-- The two error variants of the HAMT error enum that the bit extractor can
produce (`Error::InvalidHashBitLen` and `Error::MaxDepth`). -/
inductive Error where
  | invalidHashBitLen
  | maxDepth
deriving DecidableEq, Repr

/-- `HashBits` from `hash_bits.rs`: a reference to the hashed key (a byte
sequence; each byte is a `u8`) plus the `consumed` bit offset (a `u32`). -/
structure HashBits where
  b : List Nat
  consumed : Nat
deriving DecidableEq, Repr

/-- `mkmask(n) = ((1u64 << n) - 1) as u32`. -/
def mkmask (n : Nat) : Nat := (2 ^ n - 1) % 2 ^ 32

/-- Bitwise complement on `u32` (`!x` in Rust): for `x < 2 ^ 32` the
complement is `(2 ^ 32 - 1) - x`. -/
def u32not (x : Nat) : Nat := (2 ^ 32 - 1) - x

/-- `HashBits::next_bits`: returns the extracted value together with the new
`consumed` offset.  `none` models the panic on out-of-bounds indexing of
`self.b[curbi]`.  The final `% 2 ^ 32` in the byte-spanning branch is the
`as u32` cast of the `u64` accumulator (the intermediate `u64` arithmetic
cannot wrap: both summands are below `2 ^ 32`). -/
def next_bits (b : List Nat) (consumed i : Nat) : Option (Nat × Nat) :=
  let curbi := consumed / 8
  let leftb := 8 - consumed % 8
  match b[curbi]? with
  | none => none
  | some curb =>
    if i = leftb then
      some (mkmask i &&& curb, consumed + i)
    else if i < leftb then
      let a := curb &&& mkmask leftb
      let b2 := a &&& u32not (mkmask (leftb - i))
      let c := b2 >>> (leftb - i)
      some (c, consumed + i)
    else
      match next_bits b (consumed + leftb) (i - leftb) with
      | none => none
      | some (rest, consumed2) =>
        let out := (mkmask leftb &&& curb) <<< (i - leftb)
        some ((out + rest) % 2 ^ 32, consumed2)
termination_by i
decreasing_by
  have h8 : consumed % 8 < 8 := Nat.mod_lt _ (by omega)
  omega

/-- `HashBits::next`: validates the requested bit count, computes the number
of remaining bits with `u32` arithmetic (`(self.b.len() as u32) * 8 -
self.consumed`, a wrapping subtraction in release mode), and extracts
`min i maxi` bits.  The (possibly updated) state is returned alongside the
result, mirroring the `&mut self` receiver; `none` models a panic. -/
def next (hb : HashBits) (i : Nat) : Option (Except Error Nat × HashBits) :=
  if 8 < i ∨ i = 0 then
    some (.error .invalidHashBitLen, hb)
  else
    let maxi := (hb.b.length % 2 ^ 32 * 8 % 2 ^ 32 + 2 ^ 32 - hb.consumed % 2 ^ 32) % 2 ^ 32
    if maxi = 0 then
      some (.error .maxDepth, hb)
    else
      match next_bits hb.b hb.consumed (min i maxi) with
      | none => none
      | some (v, c2) => some (.ok v, { hb with consumed := c2 })

/-- `HashBits::new_at_index`: constructs the extractor at an arbitrary
`consumed` offset, with no validation. -/
def new_at_index (b : List Nat) (consumed : Nat) : HashBits := ⟨b, consumed⟩

/-- `HashBits::new`: constructs the extractor at offset `0`. -/
def new (b : List Nat) : HashBits := new_at_index b 0

/-- Reference definition: bit number `p` of the key, counting bits
most-significant-first within each byte (bit `0` is the top bit of byte
`0`). -/
def keyBit (b : List Nat) (p : Nat) : Nat :=
  b.getD (p / 8) 0 / 2 ^ (7 - p % 8) % 2

/-- Reference bit-field extraction: the unsigned integer formed by bits
`s .. s + n - 1` of the key, most-significant-bit-first. -/
def extractBits (b : List Nat) (s n : Nat) : Nat :=
  (List.range n).foldl (fun acc j => 2 * acc + keyBit b (s + j)) 0

/-- The all-zero 32-byte hashed key. -/
def zeroKey : List Nat := List.replicate 32 0

/-- The literal test key of `test_bitfield`. -/
def keyA : List Nat :=
  [0b10001000, 0b10101010, 0b10111111, 0b11111111,
   0, 0, 0, 0, 0, 0, 0, 0, 0, 0, 0, 0,
   0, 0, 0, 0, 0, 0, 0, 0, 0, 0, 0, 0, 0, 0, 0, 0]

/-- Runs `next n` a given number of times, keeping only successful states. -/
def iterNext (n : Nat) : Nat → HashBits → Option HashBits
  | 0, hb => some hb
  | k + 1, hb =>
    match next hb n with
    | some (.ok _, hb') => iterNext n k hb'
    | _ => none

/-- The 256-bit key whose only set bit is the lowest bit of the last byte. -/
def keyB : List Nat :=
  [0, 0, 0, 0, 0, 0, 0, 0, 0, 0, 0, 0, 0, 0, 0, 0,
   0, 0, 0, 0, 0, 0, 0, 0, 0, 0, 0, 0, 0, 0, 0, 0b00000001]

end HamtSpec


namespace HamtModel

/-- Modelled from the spec: the HAMT node/trie implementation (the `set`,
`delete`, `flush` and serialization logic of the trie) is not under `src/`;
only the bit extractor is.  This section models that missing part from the
specification (sections 2-4 and 6): a configuration holds the number of
slots per node (`2 ^ bit-width`), the maximum depth (hash bits exhausted),
the bucket-size threshold, and the slice function giving the `bit-width`-bit
window of a key's hash at each depth. -/
structure HamtCfg where
  numSlots : Nat
  maxDepth : Nat
  bucketSize : Nat
  slice : Nat → Nat → Nat

/-- Modelled from the spec: a trie level is either a Bucket (ordered
key-value pairs) or a Node (bitmap plus dense pointers, represented as the
ascending-slot association list of occupied children, exactly the serialized
shape of section 6). -/
inductive Tree where
  | bucket (entries : List (Nat × Nat))
  | node (children : List (Nat × Tree))

/-- Modelled from the spec: replace-or-insert of a pair into a bucket kept
in canonical ascending key order (section 4.3: encoded order must be by
ascending key regardless of insertion order). -/
def insertSorted : List (Nat × Nat) → Nat → Nat → List (Nat × Nat)
  | [], k, v => [(k, v)]
  | (k1, v1) :: rest, k, v =>
    if k < k1 then (k, v) :: (k1, v1) :: rest
    else if k = k1 then (k, v) :: rest
    else (k1, v1) :: insertSorted rest k v

/-- The entries whose hash slice at depth `d` selects slot `s`. -/
def part (c : HamtCfg) (d s : Nat) (es : List (Nat × Nat)) : List (Nat × Nat) :=
  es.filter (fun e => c.slice e.1 d = s)

/-- Modelled from the spec: the canonical subtree holding `es` at depth `d` —
a bucket when the entries fit the threshold or the hash bits are exhausted,
otherwise a node that redistributes the entries by their slice at `d`
(repeating the split on any still-overflowing child, section 4.2). -/
def build (c : HamtCfg) (d : Nat) (es : List (Nat × Nat)) : Tree :=
  if h : es.length ≤ c.bucketSize ∨ c.maxDepth ≤ d then .bucket es
  else .node ((List.range c.numSlots).filterMap (fun s =>
    if part c d s es = [] then none
    else some (s, build c (d + 1) (part c d s es))))
termination_by c.maxDepth - d
decreasing_by omega

/-- The child stored in slot `s` of the canonical node over `es` at depth
`d`, if that slot is occupied. -/
def buildChild (c : HamtCfg) (d : Nat) (es : List (Nat × Nat)) (s : Nat) : Option Tree :=
  if part c d s es = [] then none
  else some (build c (d + 1) (part c d s es))

/-- The ascending-slot association list of the occupied children described
by `f`, over the slot enumeration `l`. -/
def childList (f : Nat → Option Tree) (l : List Nat) : List (Nat × Tree) :=
  l.filterMap (fun s => (f s).map (fun t => (s, t)))

/-- The canonical node over `es` whose next partitioning slice is depth `d`. -/
def mkNode (c : HamtCfg) (d : Nat) (es : List (Nat × Nat)) : Tree :=
  .node (childList (buildChild c d es) (List.range c.numSlots))

mutual

/-- Modelled from the spec (section 4.2, `set`): navigate by the slice at
the current depth; an empty slot receives a fresh single-pair bucket; a
bucket gets replace-or-append and is split into a child node (re-hashing at
the next depth) when it exceeds the threshold before maximum depth. -/
def setAt (c : HamtCfg) (d k v : Nat) : Tree → Tree
  | .bucket es =>
    let es2 := insertSorted es k v
    if c.bucketSize < es2.length ∧ d < c.maxDepth then mkNode c d es2
    else .bucket es2
  | .node cs => .node (setChildren c d k v (c.slice k d) cs)

/-- Updates the sorted child list at slot `s` (insert a fresh bucket, or
descend into the existing child). -/
def setChildren (c : HamtCfg) (d k v s : Nat) :
    List (Nat × Tree) → List (Nat × Tree)
  | [] => [(s, .bucket [(k, v)])]
  | (s1, t1) :: rest =>
    if s < s1 then (s, .bucket [(k, v)]) :: (s1, t1) :: rest
    else if s = s1 then (s, setAt c (d + 1) k v t1) :: rest
    else (s1, t1) :: setChildren c d k v s rest

end

mutual

/-- Modelled from the spec (section 4.2, `delete`): navigate to the bucket
and remove the matching pair; a bucket that becomes empty has its slot
cleared and its pointer dropped; a node left with a single bucket child is
not collapsed into the parent (the spec's stated default, flagged there as
an open canonicalization question). -/
def deleteAt (c : HamtCfg) (d k : Nat) : Tree → Tree
  | .bucket es => .bucket (es.filter (fun e => e.1 ≠ k))
  | .node cs => .node (delChildren c d k (c.slice k d) cs)

/-- Updates the sorted child list for a deletion at slot `s`, dropping a
child that became an empty bucket. -/
def delChildren (c : HamtCfg) (d k s : Nat) :
    List (Nat × Tree) → List (Nat × Tree)
  | [] => []
  | (s1, t1) :: rest =>
    if s = s1 then
      match deleteAt c (d + 1) k t1 with
      | .bucket [] => rest
      | t2 => (s1, t2) :: rest
    else (s1, t1) :: delChildren c d k s rest

end

mutual

/-- Modelled from the spec (section 6): the canonical serialized form of a
block — a tag, the length, and the children in ascending slot order with
bucket entries in canonical key order. -/
def serialize : Tree → List Nat
  | .bucket es => 0 :: es.length :: es.flatMap (fun e => [e.1, e.2])
  | .node cs => 1 :: cs.length :: serializeChildren cs

/-- Serializes a child list in ascending slot order. -/
def serializeChildren : List (Nat × Tree) → List Nat
  | [] => []
  | (s, t) :: rest => s :: (serialize t ++ serializeChildren rest)

end

/-- Modelled from the spec: `flush` writes the serialized blocks and
returns the root reference, a content identifier that is a deterministic
function of the serialized root block; two roots coincide exactly when
their serialized bytes coincide, so the reference is modelled as the
serialized form itself. -/
def flushRef (t : Tree) : List Nat := serialize t

/-- The freshly constructed empty trie root. -/
def emptyRoot : Tree := .node []

/-- A step of a mutation history: an insertion or a deletion. -/
inductive Op where
  | set (k v : Nat)
  | del (k : Nat)

/-- Applies one history step to the trie. -/
def applyOpTree (c : HamtCfg) (t : Tree) : Op → Tree
  | .set k v => setAt c 0 k v t
  | .del k => deleteAt c 0 k t

/-- Runs a mutation history against the empty trie. -/
def applyOpsTree (c : HamtCfg) (l : List Op) : Tree :=
  l.foldl (applyOpTree c) emptyRoot

/-- Applies one history step to the logical key-value map (canonical sorted
association list). -/
def applyOpMap (m : List (Nat × Nat)) : Op → List (Nat × Nat)
  | .set k v => insertSorted m k v
  | .del k => m.filter (fun e => e.1 ≠ k)

/-- The logical content reached by a mutation history. -/
def applyOpsMap (l : List Op) : List (Nat × Nat) :=
  l.foldl applyOpMap []

/-- A small concrete configuration: 4 slots per node (bit-width 2), two
levels of hash slices, bucket threshold 1. -/
def cexCfg : HamtCfg := ⟨4, 2, 1, fun k d => k / 4 ^ (1 - d) % 4⟩

/-- A history that inserts keys 0 and 1 (forcing a bucket split) and then
deletes key 1 again. -/
def hist1 : List Op := [.set 0 7, .set 1 8, .del 1]

/-- A history that only ever inserts key 0. -/
def hist2 : List Op := [.set 0 7]

/-- Strict ascending key order: the canonical bucket/content invariant. -/
def Sorted (es : List (Nat × Nat)) : Prop :=
  es.Pairwise (fun a b => a.1 < b.1)

/-- The tree placed into a slot by `setChildren`: a fresh bucket for an
empty slot, a recursive descent otherwise. -/
def updChild (c : HamtCfg) (d k v : Nat) (o : Option Tree) : Tree :=
  match o with
  | none => .bucket [(k, v)]
  | some t => setAt c (d + 1) k v t

/-- The logical content of a pure-insertion history. -/
def content (l : List (Nat × Nat)) : List (Nat × Nat) :=
  l.foldl (fun m e => insertSorted m e.1 e.2) []

/-- Builds the trie by inserting the pairs in list order into the empty
root. -/
def setPairs (c : HamtCfg) (l : List (Nat × Nat)) : Tree :=
  l.foldl (fun t e => setAt c 0 e.1 e.2 t) emptyRoot

end HamtModel


namespace HamtSpec

theorem extractBits_zero (b : List Nat) (s : Nat) : extractBits b s 0 = 0 := rfl

theorem extractBits_succ (b : List Nat) (s n : Nat) :
    extractBits b s (n + 1) = 2 * extractBits b s n + keyBit b (s + n) := by
  unfold extractBits
  rw [List.range_succ, List.foldl_append]
  rfl

theorem keyBit_lt (b : List Nat) (p : Nat) : keyBit b p < 2 :=
  Nat.mod_lt _ (by omega)

theorem extractBits_lt (b : List Nat) (s n : Nat) : extractBits b s n < 2 ^ n := by
  induction n with
  | zero => simp [extractBits_zero]
  | succ n ih =>
    have := keyBit_lt b (s + n)
    rw [extractBits_succ]
    have : 2 ^ (n + 1) = 2 * 2 ^ n := by ring
    omega

theorem extractBits_add (b : List Nat) (s m n : Nat) :
    extractBits b s (m + n) = extractBits b s m * 2 ^ n + extractBits b (s + m) n := by
  induction n with
  | zero => simp [extractBits_zero]
  | succ n ih =>
    rw [show m + (n + 1) = (m + n) + 1 by omega, extractBits_succ, ih, extractBits_succ]
    rw [show s + (m + n) = s + m + n by omega]
    ring

theorem mod_mul_div_pow (x k i : Nat) :
    x % (2 ^ k * 2 ^ i) / 2 ^ k = x / 2 ^ k % 2 ^ i := by
  rw [Nat.mod_mul, Nat.add_mul_div_left _ _ (Nat.two_pow_pos k),
    Nat.div_eq_of_lt (Nat.mod_lt _ (Nat.two_pow_pos k)), Nat.zero_add]

theorem mod_two_pow_split (X : Nat) (n : Nat) :
    X % 2 ^ (n + 1) = X % 2 + 2 * (X / 2 % 2 ^ n) := by
  have h : 2 ^ (n + 1) = 2 * 2 ^ n := by ring
  rw [h, Nat.mod_mul]

theorem extractBits_in_byte (b : List Nat) (s n : Nat) (h : s % 8 + n ≤ 8) :
    extractBits b s n = b.getD (s / 8) 0 / 2 ^ (8 - s % 8 - n) % 2 ^ n := by
  induction n with
  | zero => simp [extractBits_zero, Nat.mod_one]
  | succ n ih =>
    rw [extractBits_succ, ih (by omega)]
    have hdiv : (s + n) / 8 = s / 8 := by omega
    have hmod : (s + n) % 8 = s % 8 + n := by omega
    unfold keyBit
    rw [hdiv, hmod]
    set B := b.getD (s / 8) 0 with hB
    have e1 : 8 - s % 8 - n = (8 - s % 8 - (n + 1)) + 1 := by omega
    have e2 : 7 - (s % 8 + n) = 8 - s % 8 - (n + 1) := by omega
    rw [e1, e2]
    set e := 8 - s % 8 - (n + 1) with he
    have hX : B / 2 ^ (e + 1) = B / 2 ^ e / 2 := by
      rw [Nat.div_div_eq_div_mul]; ring_nf
    rw [hX, mod_two_pow_split (B / 2 ^ e) n]
    ring

theorem mkmask_eq (k : Nat) (hk : k ≤ 32) : mkmask k = 2 ^ k - 1 := by
  unfold mkmask
  have h1 : 2 ^ k ≤ 2 ^ 32 := Nat.pow_le_pow_right (by omega) hk
  exact Nat.mod_eq_of_lt (by omega)

theorem and_mkmask (x k : Nat) (hk : k ≤ 32) : x &&& mkmask k = x % 2 ^ k := by
  rw [mkmask_eq k hk, Nat.and_pow_two_sub_one_eq_mod]

theorem and_u32not_mkmask (x k : Nat) (hx : x < 2 ^ 32) (hk : k ≤ 32) :
    x &&& u32not (mkmask k) = 2 ^ k * (x / 2 ^ k) := by
  rw [mkmask_eq k hk]
  have hp : 2 ^ k * 2 ^ (32 - k) = 2 ^ 32 := by
    rw [← Nat.pow_add]; congr 1; omega
  have h1 : 1 ≤ 2 ^ k := Nat.one_le_two_pow
  have h2 : (1 : Nat) ≤ 2 ^ (32 - k) := Nat.one_le_two_pow
  have hmask : u32not (2 ^ k - 1) = 2 ^ k * (2 ^ (32 - k) - 1) := by
    unfold u32not
    rw [Nat.mul_sub_one]
    omega
  rw [hmask]
  apply Nat.eq_of_testBit_eq
  intro j
  rw [Nat.testBit_and, Nat.testBit_mul_pow_two, Nat.testBit_mul_pow_two,
    Nat.testBit_two_pow_sub_one]
  rcases Nat.lt_or_ge j k with hj | hj
  · simp [Nat.not_le.mpr hj]
  · have hge : j ≥ k := hj
    simp only [ge_iff_le, hge, decide_True, Bool.true_and]
    have hdiv : (x / 2 ^ k).testBit (j - k) = x.testBit j := by
      rw [← Nat.shiftRight_eq_div_pow, Nat.testBit_shiftRight]
      congr 1; omega
    rw [hdiv]
    rcases Nat.lt_or_ge j 32 with hj32 | hj32
    · simp [show j - k < 32 - k by omega]
    · have : x.testBit j = false := Nat.testBit_lt_two_pow
        (Nat.lt_of_lt_of_le hx (Nat.pow_le_pow_right (by omega) hj32))
      simp [this, show ¬ (j - k < 32 - k) by omega]

/-- Core correctness of `next_bits`: when at least `i` bits remain (and
`1 ≤ i ≤ 8`), it returns the reference bit-field extraction of `i` bits at
the current position, together with the position advanced by `i`. -/
theorem next_bits_spec (b : List Nat) :
    ∀ i consumed, 1 ≤ i → i ≤ 8 → consumed + i ≤ 8 * b.length →
    next_bits b consumed i = some (extractBits b consumed i, consumed + i) := by
  intro i
  induction i using Nat.strong_induction_on with
  | _ i ih =>
    intro consumed h1 h8 hrem
    have hidx : consumed / 8 < b.length := by omega
    have hsome : b[consumed / 8]? = some b[consumed / 8] := List.getElem?_eq_getElem hidx
    have hBD : b.getD (consumed / 8) 0 = b[consumed / 8] := by
      rw [List.getD_eq_getElem?_getD, hsome]; rfl
    set B := b[consumed / 8] with hBdef
    have ho : consumed % 8 < 8 := Nat.mod_lt _ (by omega)
    rw [next_bits]
    simp only [hsome]
    set o := consumed % 8 with hodef
    rcases Nat.lt_trichotomy i (8 - o) with hlt | heq | hgt
    · -- Ordering::Less: the requested span lies inside the current byte
      rw [if_neg (by omega), if_pos hlt]
      have ha : B &&& mkmask (8 - o) = B % 2 ^ (8 - o) := and_mkmask B (8 - o) (by omega)
      have hb2 : B % 2 ^ (8 - o) &&& u32not (mkmask (8 - o - i)) =
          2 ^ (8 - o - i) * (B % 2 ^ (8 - o) / 2 ^ (8 - o - i)) := by
        apply and_u32not_mkmask _ _ _ (by omega)
        have : B % 2 ^ (8 - o) < 2 ^ (8 - o) := Nat.mod_lt _ (Nat.two_pow_pos _)
        have : (2 : Nat) ^ (8 - o) ≤ 2 ^ 32 := Nat.pow_le_pow_right (by omega) (by omega)
        omega
      rw [ha, hb2, Nat.shiftRight_eq_div_pow,
        Nat.mul_div_cancel_left _ (Nat.two_pow_pos _)]
      have hsplit : (2 : Nat) ^ (8 - o) = 2 ^ (8 - o - i) * 2 ^ i := by
        rw [← Nat.pow_add]; congr 1; omega
      rw [hsplit, mod_mul_div_pow]
      rw [extractBits_in_byte b consumed i (by omega), hBD]
    · -- Ordering::Equal: the span ends exactly at the byte boundary
      rw [if_pos heq]
      rw [Nat.and_comm, and_mkmask B i (by omega)]
      rw [extractBits_in_byte b consumed i (by omega), hBD]
      rw [show 8 - consumed % 8 - i = 0 by omega]
      simp
    · -- Ordering::Greater: the span crosses into the next byte(s)
      rw [if_neg (by omega), if_neg (by omega)]
      have hrec := ih (i - (8 - o)) (by omega) (consumed + (8 - o)) (by omega) (by omega)
        (by omega)
      rw [hrec]
      simp only
      rw [Nat.and_comm, and_mkmask B (8 - o) (by omega), Nat.shiftLeft_eq]
      have hlo : extractBits b (consumed + (8 - o)) (i - (8 - o)) < 2 ^ (i - (8 - o)) :=
        extractBits_lt _ _ _
      have hhi : B % 2 ^ (8 - o) < 2 ^ (8 - o) := Nat.mod_lt _ (Nat.two_pow_pos _)
      have hcomb : B % 2 ^ (8 - o) * 2 ^ (i - (8 - o)) +
          extractBits b (consumed + (8 - o)) (i - (8 - o)) < 2 ^ 32 := by
        have hmul : (B % 2 ^ (8 - o) + 1) * 2 ^ (i - (8 - o)) ≤
            2 ^ (8 - o) * 2 ^ (i - (8 - o)) :=
          Nat.mul_le_mul_right _ (by omega)
        have hpow : (2 : Nat) ^ (8 - o) * 2 ^ (i - (8 - o)) = 2 ^ i := by
          rw [← Nat.pow_add]; congr 1; omega
        have h2i : (2 : Nat) ^ i ≤ 2 ^ 32 := Nat.pow_le_pow_right (by omega) (by omega)
        nlinarith
      rw [Nat.mod_eq_of_lt hcomb]
      have hadd := extractBits_add b consumed (8 - o) (i - (8 - o))
      rw [show 8 - o + (i - (8 - o)) = i by omega] at hadd
      rw [hadd]
      rw [extractBits_in_byte b consumed (8 - o) (by omega), hBD]
      rw [show 8 - consumed % 8 - (8 - o) = 0 by omega]
      simp only [Nat.pow_zero, Nat.div_one]
      rw [show consumed + (8 - o) + (i - (8 - o)) = consumed + i by omega]

/-- The remaining-bit count `maxi` computed by `next` equals the true count
whenever the `consumed ≤ 8 * len` invariant holds and the length arithmetic
cannot wrap. -/
theorem maxi_eq (len consumed : Nat) (hlen : 8 * len < 2 ^ 32) (hc : consumed ≤ 8 * len) :
    (len % 2 ^ 32 * 8 % 2 ^ 32 + 2 ^ 32 - consumed % 2 ^ 32) % 2 ^ 32 =
      8 * len - consumed := by
  have h1 : len % 2 ^ 32 = len := Nat.mod_eq_of_lt (by omega)
  rw [h1]
  have h2 : len * 8 % 2 ^ 32 = len * 8 := Nat.mod_eq_of_lt (by omega)
  rw [h2]
  have h3 : consumed % 2 ^ 32 = consumed := Nat.mod_eq_of_lt (by omega)
  rw [h3]
  omega

theorem next_invalid_aux (hb : HashBits) (n : Nat) (h : 8 < n ∨ n = 0) :
    next hb n = some (.error .invalidHashBitLen, hb) := by
  simp only [next]
  rw [if_pos h]

theorem next_maxDepth_aux (b : List Nat) (consumed n : Nat) (h1 : 1 ≤ n) (h8 : n ≤ 8)
    (hlen : 8 * b.length < 2 ^ 32) (hceq : consumed = 8 * b.length) :
    next ⟨b, consumed⟩ n = some (.error .maxDepth, ⟨b, consumed⟩) := by
  have hmx := maxi_eq b.length consumed hlen (by omega)
  simp only [next, hmx]
  rw [if_neg (by omega), if_pos (by omega)]

theorem next_ok_aux (b : List Nat) (consumed n : Nat) (h1 : 1 ≤ n) (h8 : n ≤ 8)
    (hlen : 8 * b.length < 2 ^ 32) (hc : consumed < 8 * b.length) :
    next ⟨b, consumed⟩ n =
      some (.ok (extractBits b consumed (min n (8 * b.length - consumed))),
        ⟨b, consumed + min n (8 * b.length - consumed)⟩) := by
  have hmx := maxi_eq b.length consumed hlen (by omega)
  simp only [next, hmx]
  rw [if_neg (by omega), if_neg (by omega)]
  rw [next_bits_spec b (min n (8 * b.length - consumed)) consumed (by omega) (by omega)
    (by omega)]

/-- C1: for every hashed key, every starting position `consumed ≤ 8 * length`,
and every `n` with `1 ≤ n ≤ 8` such that at least `n` bits remain,
`next n` returns `Ok` of the reference bit-field extraction of bits
`consumed .. consumed + n - 1` (most-significant-bit-first) and advances
`consumed` by exactly `n`. -/
theorem next_extracts (b : List Nat) (consumed n : Nat) (h1 : 1 ≤ n) (h8 : n ≤ 8)
    (hlen : 8 * b.length < 2 ^ 32) (hrem : consumed + n ≤ 8 * b.length) :
    next ⟨b, consumed⟩ n =
      some (.ok (extractBits b consumed n), ⟨b, consumed + n⟩) := by
  rw [next_ok_aux b consumed n h1 h8 hlen (by omega), Nat.min_eq_left (by omega)]

/-- C3: when fewer than `n` (but more than zero) bits remain, `next n`
returns `Ok` holding only the remaining bits, and any immediately following
call (with zero bits remaining) fails with `MaxDepth`. -/
theorem next_short_read (b : List Nat) (consumed n : Nat) (h1 : 1 ≤ n) (h8 : n ≤ 8)
    (hlen : 8 * b.length < 2 ^ 32) (hpos : consumed < 8 * b.length)
    (hshort : 8 * b.length - consumed < n) :
    next ⟨b, consumed⟩ n =
      some (.ok (extractBits b consumed (8 * b.length - consumed)), ⟨b, 8 * b.length⟩) ∧
    ∀ m, 1 ≤ m → m ≤ 8 →
      next ⟨b, 8 * b.length⟩ m = some (.error .maxDepth, ⟨b, 8 * b.length⟩) := by
  constructor
  · rw [next_ok_aux b consumed n h1 h8 hlen hpos, Nat.min_eq_right (by omega)]
    rw [show consumed + (8 * b.length - consumed) = 8 * b.length by omega]
  · intro m hm1 hm8
    exact next_maxDepth_aux b (8 * b.length) m hm1 hm8 hlen rfl

/-- C4: for every extractor state and every `n` outside `1..=8`, `next n`
fails with `InvalidHashBitLen` (and leaves the state unchanged). -/
theorem next_invalid (hb : HashBits) (n : Nat) (h : n = 0 ∨ 8 < n) :
    next hb n = some (.error .invalidHashBitLen, hb) :=
  next_invalid_aux hb n (by omega)

/-- C5: for `1 ≤ n ≤ 8`, `next n` fails with `MaxDepth` exactly when zero
bits remain, i.e. `consumed = 8 * length`; it is never returned while bits
remain. -/
theorem next_maxDepth_iff (b : List Nat) (consumed n : Nat) (h1 : 1 ≤ n) (h8 : n ≤ 8)
    (hlen : 8 * b.length < 2 ^ 32) (hc : consumed ≤ 8 * b.length) :
    (∃ hb', next ⟨b, consumed⟩ n = some (.error .maxDepth, hb')) ↔
      consumed = 8 * b.length := by
  constructor
  · rintro ⟨hb', heq⟩
    by_contra hne
    rw [next_ok_aux b consumed n h1 h8 hlen (by omega)] at heq
    simp at heq
  · intro hceq
    exact ⟨⟨b, consumed⟩, next_maxDepth_aux b consumed n h1 h8 hlen hceq⟩

/-- C6: `consumed` never decreases across a call to `next`: a successful
call advances it by exactly `min n (bits remaining)`, a failed call leaves
it unchanged, the key is untouched and the offset never passes the key's
bit length. -/
theorem consumed_monotone (b : List Nat) (consumed n : Nat)
    (hlen : 8 * b.length < 2 ^ 32) (hc : consumed ≤ 8 * b.length) :
    ∀ r hb', next ⟨b, consumed⟩ n = some (r, hb') →
      hb'.b = b ∧ consumed ≤ hb'.consumed ∧ hb'.consumed ≤ 8 * b.length ∧
      ((∃ v, r = .ok v) → hb'.consumed = consumed + min n (8 * b.length - consumed)) ∧
      ((∃ e, r = .error e) → hb'.consumed = consumed) := by
  intro r hb' heq
  rcases Nat.lt_or_ge 8 n with hn | hn
  · rw [next_invalid_aux _ _ (by omega)] at heq
    injection heq with heq
    injection heq with h1 h2
    subst h1; subst h2
    refine ⟨rfl, by dsimp only; omega, by dsimp only; omega, ?_, fun _ => rfl⟩
    rintro ⟨v, hv⟩; cases hv
  · rcases Nat.eq_zero_or_pos n with hn0 | hn0
    · rw [next_invalid_aux _ _ (by omega)] at heq
      injection heq with heq
      injection heq with h1 h2
      subst h1; subst h2
      refine ⟨rfl, by dsimp only; omega, by dsimp only; omega, ?_, fun _ => rfl⟩
      rintro ⟨v, hv⟩; cases hv
    · rcases Nat.lt_or_ge consumed (8 * b.length) with hclt | hcge
      · rw [next_ok_aux b consumed n hn0 hn hlen hclt] at heq
        injection heq with heq
        injection heq with h1 h2
        subst h1; subst h2
        have hmin : min n (8 * b.length - consumed) ≤ 8 * b.length - consumed :=
          Nat.min_le_right _ _
        refine ⟨rfl, by dsimp only; omega, by dsimp only; omega, fun _ => rfl, ?_⟩
        rintro ⟨e, he⟩; cases he
      · have hceq : consumed = 8 * b.length := by omega
        rw [next_maxDepth_aux b consumed n hn0 hn hlen hceq] at heq
        injection heq with heq
        injection heq with h1 h2
        subst h1; subst h2
        refine ⟨rfl, by dsimp only; omega, by dsimp only; omega, ?_, fun _ => rfl⟩
        rintro ⟨v, hv⟩; cases hv

/-- C9: whenever `next` returns an error (either kind), the extractor state
is unchanged: a failed call never consumes bits. -/
theorem error_preserves_state (hb : HashBits) (n : Nat) (e : Error) (hb' : HashBits)
    (heq : next hb n = some (.error e, hb')) : hb' = hb := by
  by_cases hn : 8 < n ∨ n = 0
  · rw [next_invalid_aux hb n hn] at heq
    injection heq with heq
    injection heq with h1 h2
    exact h2.symm
  · simp only [next, if_neg hn] at heq
    by_cases hmx : (hb.b.length % 2 ^ 32 * 8 % 2 ^ 32 + 2 ^ 32 - hb.consumed % 2 ^ 32)
        % 2 ^ 32 = 0
    · rw [if_pos hmx] at heq
      injection heq with heq
      injection heq with h1 h2
      exact h2.symm
    · rw [if_neg hmx] at heq
      rcases hnb : next_bits hb.b hb.consumed
          (min n ((hb.b.length % 2 ^ 32 * 8 % 2 ^ 32 + 2 ^ 32 - hb.consumed % 2 ^ 32)
            % 2 ^ 32)) with _ | ⟨v, c2⟩
      · rw [hnb] at heq; cases heq
      · rw [hnb] at heq
        injection heq with heq
        injection heq with h1 h2
        cases h1

/-- C10: under the invariant `consumed ≤ 8 * length` every call to `next`
terminates without panicking (returns `some`), but `new_at_index` does not
enforce that invariant, and a state built with `consumed > 8 * length` makes
`next` panic (modelled as `none`): the wrapped subtraction yields a huge
remaining-bit count and `next_bits` then indexes the key out of bounds. -/
theorem next_total_and_unguarded :
    (∀ (b : List Nat) (consumed n : Nat), 8 * b.length < 2 ^ 32 →
      consumed ≤ 8 * b.length → ∃ r, next (new_at_index b consumed) n = some r) ∧
    next (new_at_index zeroKey 257) 1 = none := by
  constructor
  · intro b consumed n hlen hc
    by_cases hn : 8 < n ∨ n = 0
    · exact ⟨_, next_invalid_aux _ n hn⟩
    · rcases Nat.lt_or_ge consumed (8 * b.length) with hlt | hge
      · exact ⟨_, next_ok_aux b consumed n (by omega) (by omega) hlen hlt⟩
      · exact ⟨_, next_maxDepth_aux b consumed n (by omega) (by omega) hlen (by omega)⟩
  · show next ⟨zeroKey, 257⟩ 1 = none
    simp [next, next_bits, zeroKey]

/-- C7: the literal extraction vector: from the key starting with bytes
`[0b10001000, 0b10101010, 0b10111111, 0b11111111]`, the call sequence
`next 8, next 5, next 5, next 6, next 8` returns `0b10001000, 0b10101,
0b01010, 0b111111, 0b11111111`. -/
theorem test_bitfield_vector :
    next ⟨keyA, 0⟩ 8 = some (.ok 0b10001000, ⟨keyA, 8⟩) ∧
    next ⟨keyA, 8⟩ 5 = some (.ok 0b10101, ⟨keyA, 13⟩) ∧
    next ⟨keyA, 13⟩ 5 = some (.ok 0b01010, ⟨keyA, 18⟩) ∧
    next ⟨keyA, 18⟩ 6 = some (.ok 0b111111, ⟨keyA, 24⟩) ∧
    next ⟨keyA, 24⟩ 8 = some (.ok 0b11111111, ⟨keyA, 32⟩) := by
  refine ⟨?_, ?_, ?_, ?_, ?_⟩ <;> simp [next, next_bits, mkmask, u32not, keyA]
  all_goals decide

/-- C8: on a 256-bit key whose final byte is `0b00000001`, `next 5` succeeds
51 times (consuming 255 bits), the 52nd call returns `Ok 1` (the single
remaining bit), and the 53rd fails with `MaxDepth`. -/
theorem test_partial_last_bits_vector :
    iterNext 5 51 ⟨keyB, 0⟩ = some ⟨keyB, 255⟩ ∧
    next ⟨keyB, 255⟩ 5 = some (.ok 1, ⟨keyB, 256⟩) ∧
    next ⟨keyB, 256⟩ 5 = some (.error .maxDepth, ⟨keyB, 256⟩) := by
  refine ⟨?_, ?_, ?_⟩ <;> simp [iterNext, next, next_bits, mkmask, u32not, keyB]

/-- C1 witness at a concrete input. -/
theorem next_extracts_witness :
    next ⟨keyA, 0⟩ 8 = some (.ok (extractBits keyA 0 8), ⟨keyA, 8⟩) :=
  next_extracts keyA 0 8 (by decide) (by decide) (by decide) (by decide)

/-- C3 witness at a concrete input: 6 bits remain but 8 are requested. -/
theorem next_short_read_witness :
    (next ⟨keyA, 250⟩ 8 =
      some (.ok (extractBits keyA 250 (8 * keyA.length - 250)), ⟨keyA, 8 * keyA.length⟩) ∧
    ∀ m, 1 ≤ m → m ≤ 8 →
      next ⟨keyA, 8 * keyA.length⟩ m =
        some (.error .maxDepth, ⟨keyA, 8 * keyA.length⟩)) :=
  next_short_read keyA 250 8 (by decide) (by decide) (by decide) (by decide) (by decide)

/-- C4 witness at a concrete input. -/
theorem next_invalid_witness :
    next (new keyA) 9 = some (.error .invalidHashBitLen, new keyA) :=
  next_invalid (new keyA) 9 (by decide)

/-- C5 witness at a concrete input: the key is fully consumed. -/
theorem next_maxDepth_iff_witness :
    ((∃ hb', next ⟨keyA, 256⟩ 5 = some (.error .maxDepth, hb')) ↔
      256 = 8 * keyA.length) :=
  next_maxDepth_iff keyA 256 5 (by decide) (by decide) (by decide) (by decide)

/-- C6 witness at a concrete input: the first 5-bit read of `keyA`. -/
theorem consumed_monotone_witness :
    (⟨keyA, 5⟩ : HashBits).b = keyA ∧ 0 ≤ (⟨keyA, 5⟩ : HashBits).consumed ∧
    (⟨keyA, 5⟩ : HashBits).consumed ≤ 8 * keyA.length ∧
    ((∃ v, (Except.ok 17 : Except Error Nat) = .ok v) →
      (⟨keyA, 5⟩ : HashBits).consumed = 0 + min 5 (8 * keyA.length - 0)) ∧
    ((∃ e, (Except.ok 17 : Except Error Nat) = .error e) →
      (⟨keyA, 5⟩ : HashBits).consumed = 0) :=
  consumed_monotone keyA 0 5 (by decide) (by decide) (.ok 17) ⟨keyA, 5⟩
    (by simp [next, next_bits, mkmask, u32not, keyA]; decide)

/-- C9 witness at a concrete input: an invalid-length call leaves the state
unchanged. -/
theorem error_preserves_state_witness : (⟨keyA, 0⟩ : HashBits) = ⟨keyA, 0⟩ :=
  error_preserves_state ⟨keyA, 0⟩ 9 .invalidHashBitLen ⟨keyA, 0⟩ rfl

/-- C10 witness at a concrete input. -/
theorem next_total_and_unguarded_witness :
    (∃ r, next (new_at_index keyA 0) 3 = some r) ∧
    next (new_at_index zeroKey 257) 1 = none :=
  ⟨next_total_and_unguarded.1 keyA 0 3 (by decide) (by decide),
    next_total_and_unguarded.2⟩

end HamtSpec


namespace HamtModel

theorem insertSorted_ne_nil (es : List (Nat × Nat)) (k v : Nat) :
    insertSorted es k v ≠ [] := by
  match es with
  | [] => simp [insertSorted]
  | (k1, v1) :: rest =>
    unfold insertSorted
    split
    · simp
    · split <;> simp

theorem length_le_insertSorted (es : List (Nat × Nat)) (k v : Nat) :
    es.length ≤ (insertSorted es k v).length := by
  induction es with
  | nil => simp [insertSorted]
  | cons e rest ih =>
    obtain ⟨k1, v1⟩ := e
    unfold insertSorted
    split
    · simp
    · split
      · simp
      · simpa using ih

theorem mem_insertSorted (es : List (Nat × Nat)) (k v : Nat) (e : Nat × Nat)
    (h : e ∈ insertSorted es k v) : e = (k, v) ∨ e ∈ es := by
  induction es with
  | nil => simpa [insertSorted] using h
  | cons e1 rest ih =>
    obtain ⟨k1, v1⟩ := e1
    unfold insertSorted at h
    split at h
    · rcases List.mem_cons.mp h with h | h
      · exact Or.inl h
      · exact Or.inr h
    · split at h
      · rcases List.mem_cons.mp h with h | h
        · exact Or.inl h
        · exact Or.inr (List.mem_cons_of_mem _ h)
      · rcases List.mem_cons.mp h with h | h
        · subst h; exact Or.inr (List.mem_cons_self _ _)
        · rcases ih h with h | h
          · exact Or.inl h
          · exact Or.inr (List.mem_cons_of_mem _ h)

theorem insertSorted_sorted (es : List (Nat × Nat)) (k v : Nat) (hs : Sorted es) :
    Sorted (insertSorted es k v) := by
  induction es with
  | nil => simp [insertSorted, Sorted]
  | cons e1 rest ih =>
    obtain ⟨k1, v1⟩ := e1
    rw [Sorted, List.pairwise_cons] at hs
    obtain ⟨hall, hrest⟩ := hs
    unfold insertSorted
    split
    · rw [Sorted, List.pairwise_cons]
      refine ⟨?_, List.pairwise_cons.mpr ⟨hall, hrest⟩⟩
      intro e he
      rcases List.mem_cons.mp he with h | h
      · subst h; omega
      · have := hall e h; dsimp at *; omega
    · split
      · rw [Sorted, List.pairwise_cons]
        exact ⟨fun e he => by have := hall e he; omega, hrest⟩
      · rw [Sorted, List.pairwise_cons]
        refine ⟨?_, ih hrest⟩
        intro e he
        rcases mem_insertSorted rest k v e he with h | h
        · subst h; dsimp; omega
        · exact hall e h

theorem insertSorted_eq_cons (es : List (Nat × Nat)) (k v : Nat)
    (h : ∀ e ∈ es, k < e.1) : insertSorted es k v = (k, v) :: es := by
  match es with
  | [] => rfl
  | (k1, v1) :: rest =>
    have := h (k1, v1) (by simp)
    unfold insertSorted
    rw [if_pos this]

theorem insertSorted_comm (k v k' v' : Nat) (hne : k ≠ k') :
    ∀ es, insertSorted (insertSorted es k v) k' v' =
      insertSorted (insertSorted es k' v') k v := by
  intro es
  induction es with
  | nil =>
    simp only [insertSorted]
    split_ifs <;> (try simp_all only [insertSorted]) <;>
      first | rfl | contradiction | (exfalso; omega)
  | cons e1 rest ih =>
    obtain ⟨k1, v1⟩ := e1
    simp only [insertSorted]
    split_ifs <;> (try simp_all only [insertSorted]) <;> (try split_ifs) <;>
      first | rfl | contradiction | (exfalso; omega)

theorem insertSorted_cons_lt {k k1 : Nat} (v v1 : Nat) (rest : List (Nat × Nat))
    (h : k < k1) : insertSorted ((k1, v1) :: rest) k v = (k, v) :: (k1, v1) :: rest := by
  unfold insertSorted
  rw [if_pos h]

theorem insertSorted_cons_eq {k k1 : Nat} (v v1 : Nat) (rest : List (Nat × Nat))
    (h : k = k1) : insertSorted ((k1, v1) :: rest) k v = (k, v) :: rest := by
  unfold insertSorted
  rw [if_neg (by omega), if_pos h]

theorem insertSorted_cons_gt {k k1 : Nat} (v v1 : Nat) (rest : List (Nat × Nat))
    (h : k1 < k) : insertSorted ((k1, v1) :: rest) k v = (k1, v1) :: insertSorted rest k v := by
  simp only [insertSorted]
  rw [if_neg (by omega), if_neg (by omega)]

theorem filter_insertSorted (p : Nat × Nat → Bool)
    (hp : ∀ a b b', p (a, b) = p (a, b')) (k v : Nat) :
    ∀ es, Sorted es →
      (insertSorted es k v).filter p =
        if p (k, v) then insertSorted (es.filter p) k v else es.filter p := by
  intro es
  induction es with
  | nil =>
    intro _
    cases hpkv : p (k, v) <;> simp [insertSorted, List.filter, hpkv]
  | cons e1 rest ih =>
    intro hs
    obtain ⟨k1, v1⟩ := e1
    rw [Sorted, List.pairwise_cons] at hs
    obtain ⟨hall, hrest⟩ := hs
    have ihr := ih hrest
    rcases Nat.lt_trichotomy k k1 with h1 | h1 | h1
    · rw [insertSorted_cons_lt v v1 rest h1]
      cases hpkv : p (k, v)
      · simp [List.filter_cons, hpkv]
      · have hgt : ∀ e ∈ ((k1, v1) :: rest).filter p, k < e.1 := by
          intro e he
          have hmem := List.mem_of_mem_filter he
          rcases List.mem_cons.mp hmem with h | h
          · subst h; exact h1
          · have := hall e h; omega
        rw [if_pos rfl, insertSorted_eq_cons _ _ _ hgt, List.filter_cons, if_pos hpkv]
    · subst h1
      rw [insertSorted_cons_eq v v1 rest rfl]
      have hpv1 : p (k, v1) = p (k, v) := hp k v1 v
      cases hpkv : p (k, v)
      · simp [List.filter_cons, hpv1, hpkv]
      · simp [List.filter_cons, hpv1, hpkv,
          insertSorted_cons_eq v v1 (rest.filter p) rfl]
    · rw [insertSorted_cons_gt v v1 rest h1]
      cases hpkv : p (k, v) <;> cases hp1 : p (k1, v1) <;>
        simp [List.filter_cons, hpkv, hp1, ihr,
          insertSorted_cons_gt v v1 (rest.filter p) h1]

theorem childList_nil (f : Nat → Option Tree) : childList f [] = [] := rfl

theorem childList_cons (f : Nat → Option Tree) (s0 : Nat) (l : List Nat) :
    childList f (s0 :: l) =
      match f s0 with
      | none => childList f l
      | some t => (s0, t) :: childList f l := by
  unfold childList
  rw [List.filterMap_cons]
  cases f s0 <;> rfl

theorem childList_slot_mem (f : Nat → Option Tree) (l : List Nat) (s1 : Nat) (t1 : Tree)
    (h : (s1, t1) ∈ childList f l) : s1 ∈ l := by
  unfold childList at h
  rcases List.mem_filterMap.mp h with ⟨a, ha, hfa⟩
  cases hf : f a
  · rw [hf] at hfa; cases hfa
  · rw [hf] at hfa
    simp only [Option.map_some'] at hfa
    cases hfa
    exact ha

theorem childList_congr (f g : Nat → Option Tree) (l : List Nat)
    (h : ∀ s ∈ l, f s = g s) : childList f l = childList g l := by
  unfold childList
  induction l with
  | nil => rfl
  | cons s0 l ih =>
    rw [List.filterMap_cons, List.filterMap_cons, h s0 (by simp),
      ih (fun s hs => h s (List.mem_cons_of_mem _ hs))]

theorem setChildren_gt (c : HamtCfg) (d k v s : Nat) (cs : List (Nat × Tree))
    (h : ∀ e ∈ cs, s < e.1) :
    setChildren c d k v s cs = (s, .bucket [(k, v)]) :: cs := by
  match cs with
  | [] => simp [setChildren]
  | (s1, t1) :: rest =>
    have hs1 : s < s1 := h (s1, t1) (by simp)
    simp only [setChildren]
    rw [if_pos hs1]

theorem setChildren_childList (c : HamtCfg) (d k v s : Nat) (f : Nat → Option Tree) :
    ∀ l : List Nat, l.Pairwise (· < ·) → s ∈ l →
      setChildren c d k v s (childList f l) =
      childList (fun s' => if s' = s then some (updChild c d k v (f s')) else f s') l := by
  intro l
  induction l with
  | nil => intro _ h; cases h
  | cons s0 l ih =>
    intro hp hmem
    rw [List.pairwise_cons] at hp
    obtain ⟨hall, hp'⟩ := hp
    rcases List.mem_cons.mp hmem with hs0 | hmem'
    · subst hs0
      have hcongr : childList
          (fun s' => if s' = s then some (updChild c d k v (f s')) else f s') l =
          childList f l := by
        apply childList_congr
        intro s1 hs1
        rw [if_neg (by have := hall s1 hs1; omega)]
      rw [childList_cons f, childList_cons _ s l, hcongr]
      cases hf : f s
      · have hgt : ∀ e ∈ childList f l, s < e.1 := by
          intro e he
          exact hall _ (childList_slot_mem f l e.1 e.2 (by simpa using he))
      
        simp [updChild, setChildren_gt c d k v s _ hgt]
      · rename_i t0
        simp [updChild, setChildren]
    · have hs0lt : s0 < s := hall s hmem'
      have key := ih hp' hmem'
      rw [childList_cons f, childList_cons _ s0 l]
      cases hf : f s0
      · simp only [if_neg (by omega : ¬ s0 = s)]
        exact key
      · rename_i t0
        simp only [if_neg (by omega : ¬ s0 = s)]
        simp only [setChildren]
        rw [if_neg (by omega), if_neg (by omega), key]

theorem build_eq_bucket (c : HamtCfg) (d : Nat) (es : List (Nat × Nat))
    (h : es.length ≤ c.bucketSize ∨ c.maxDepth ≤ d) : build c d es = .bucket es := by
  unfold build
  rw [dif_pos h]

theorem build_eq_mkNode (c : HamtCfg) (d : Nat) (es : List (Nat × Nat))
    (h : ¬ (es.length ≤ c.bucketSize ∨ c.maxDepth ≤ d)) : build c d es = mkNode c d es := by
  unfold build
  rw [dif_neg h]
  unfold mkNode childList
  congr 1
  have hfn : (fun s => (buildChild c d es s).map (fun t => (s, t))) =
      fun s => if part c d s es = [] then none
        else some (s, build c (d + 1) (part c d s es)) := by
    funext s
    unfold buildChild
    by_cases hp : part c d s es = [] <;> simp [hp]
  rw [hfn]

theorem mkNode_nil (c : HamtCfg) (d : Nat) : mkNode c d [] = .node [] := by
  unfold mkNode childList
  congr 1
  rw [List.filterMap_eq_nil_iff]
  intro s _
  unfold buildChild
  simp [part]

theorem sorted_part (c : HamtCfg) (d s : Nat) (es : List (Nat × Nat)) (hs : Sorted es) :
    Sorted (part c d s es) := List.Pairwise.filter _ hs

theorem part_insertSorted_same (c : HamtCfg) (d k v : Nat) (es : List (Nat × Nat))
    (hs : Sorted es) :
    part c d (c.slice k d) (insertSorted es k v) =
      insertSorted (part c d (c.slice k d) es) k v := by
  unfold part
  have h := filter_insertSorted (fun e => decide (c.slice e.1 d = c.slice k d))
    (fun a b b' => rfl) k v es hs
  simpa using h

theorem part_insertSorted_other (c : HamtCfg) (d k v s : Nat) (es : List (Nat × Nat))
    (hs : Sorted es) (hne : c.slice k d ≠ s) :
    part c d s (insertSorted es k v) = part c d s es := by
  unfold part
  have h := filter_insertSorted (fun e => decide (c.slice e.1 d = s))
    (fun a b b' => rfl) k v es hs
  rw [h, if_neg (by simpa using hne)]

theorem setAt_build_aux (c : HamtCfg) (hw : ∀ k d, c.slice k d < c.numSlots)
    (ht : 1 ≤ c.bucketSize) :
    ∀ (fuel d : Nat), c.maxDepth - d ≤ fuel →
      ∀ es k v, Sorted es →
        setAt c d k v (build c d es) = build c d (insertSorted es k v) := by
  intro fuel
  induction fuel with
  | zero =>
    intro d hf es k v hs
    have hd : c.maxDepth ≤ d := by omega
    rw [build_eq_bucket c d es (Or.inr hd), build_eq_bucket c d _ (Or.inr hd)]
    simp only [setAt]
    rw [if_neg (by omega)]
  | succ fuel ih =>
    intro d hf es k v hs
    by_cases hb : es.length ≤ c.bucketSize ∨ c.maxDepth ≤ d
    · rw [build_eq_bucket c d es hb]
      simp only [setAt]
      by_cases hsplit : c.bucketSize < (insertSorted es k v).length ∧ d < c.maxDepth
      · rw [if_pos hsplit, build_eq_mkNode c d _ (by omega)]
      · rw [if_neg hsplit, build_eq_bucket c d _ (by omega)]
    · have hd : d < c.maxDepth := by omega
      rw [build_eq_mkNode c d es hb]
      unfold mkNode
      simp only [setAt]
      rw [setChildren_childList c d k v (c.slice k d) (buildChild c d es)
        (List.range c.numSlots) (List.pairwise_lt_range _)
        (List.mem_range.mpr (hw k d))]
      rw [build_eq_mkNode c d (insertSorted es k v)
        (by have := length_le_insertSorted es k v; omega)]
      unfold mkNode
      congr 1
      apply childList_congr
      intro s hsmem
      by_cases hseq : s = c.slice k d
      · rw [if_pos hseq]
        subst hseq
        unfold buildChild
        have hsame := part_insertSorted_same c d k v es hs
        by_cases hpe : part c d (c.slice k d) es = []
        · rw [if_pos hpe, hsame, hpe]
          simp [updChild, insertSorted,
            build_eq_bucket c (d + 1) [(k, v)] (Or.inl (by simpa using ht))]
        · rw [if_neg hpe, hsame, if_neg (insertSorted_ne_nil _ k v)]
          have hrec := ih (d + 1) (by omega) (part c d (c.slice k d) es) k v
            (sorted_part c d _ es hs)
          simp [updChild, hrec]
      · rw [if_neg hseq]
        unfold buildChild
        rw [part_insertSorted_other c d k v s es hs (fun h => hseq h.symm)]

theorem setAt_mkNode (c : HamtCfg) (hw : ∀ k d, c.slice k d < c.numSlots)
    (ht : 1 ≤ c.bucketSize) (d : Nat) (es : List (Nat × Nat)) (k v : Nat)
    (hs : Sorted es) :
    setAt c d k v (mkNode c d es) = mkNode c d (insertSorted es k v) := by
  unfold mkNode
  simp only [setAt]
  rw [setChildren_childList c d k v (c.slice k d) (buildChild c d es)
    (List.range c.numSlots) (List.pairwise_lt_range _)
    (List.mem_range.mpr (hw k d))]
  congr 1
  apply childList_congr
  intro s hsmem
  by_cases hseq : s = c.slice k d
  · rw [if_pos hseq]
    subst hseq
    unfold buildChild
    have hsame := part_insertSorted_same c d k v es hs
    by_cases hpe : part c d (c.slice k d) es = []
    · rw [if_pos hpe, hsame, hpe]
      simp [updChild, insertSorted,
        build_eq_bucket c (d + 1) [(k, v)] (Or.inl (by simpa using ht))]
    · rw [if_neg hpe, hsame, if_neg (insertSorted_ne_nil _ k v)]
      have hrec := setAt_build_aux c hw ht c.maxDepth (d + 1) (by omega)
        (part c d (c.slice k d) es) k v (sorted_part c d _ es hs)
      simp [updChild, hrec]
  · rw [if_neg hseq]
    unfold buildChild
    rw [part_insertSorted_other c d k v s es hs (fun h => hseq h.symm)]

theorem sorted_foldl_insert (l : List (Nat × Nat)) :
    ∀ es, Sorted es → Sorted (l.foldl (fun m e => insertSorted m e.1 e.2) es) := by
  induction l with
  | nil => intro es hs; exact hs
  | cons e l ih =>
    intro es hs
    exact ih _ (insertSorted_sorted es e.1 e.2 hs)

theorem sorted_content (l : List (Nat × Nat)) : Sorted (content l) :=
  sorted_foldl_insert l [] (by simp [Sorted])

theorem foldl_setAt_mkNode (c : HamtCfg) (hw : ∀ k d, c.slice k d < c.numSlots)
    (ht : 1 ≤ c.bucketSize) (l : List (Nat × Nat)) :
    ∀ es, Sorted es →
      l.foldl (fun t e => setAt c 0 e.1 e.2 t) (mkNode c 0 es) =
        mkNode c 0 (l.foldl (fun m e => insertSorted m e.1 e.2) es) := by
  induction l with
  | nil => intro es _; rfl
  | cons e l ih =>
    intro es hs
    simp only [List.foldl_cons]
    rw [setAt_mkNode c hw ht 0 es e.1 e.2 hs]
    exact ih _ (insertSorted_sorted es e.1 e.2 hs)

theorem setPairs_eq (c : HamtCfg) (hw : ∀ k d, c.slice k d < c.numSlots)
    (ht : 1 ≤ c.bucketSize) (l : List (Nat × Nat)) :
    setPairs c l = mkNode c 0 (content l) := by
  unfold setPairs content emptyRoot
  rw [← mkNode_nil c 0]
  exact foldl_setAt_mkNode c hw ht l [] (by simp [Sorted])

theorem foldl_insert_perm (l1 l2 : List (Nat × Nat)) (hperm : l1.Perm l2) :
    (l1.map Prod.fst).Nodup → ∀ es,
      l1.foldl (fun m e => insertSorted m e.1 e.2) es =
        l2.foldl (fun m e => insertSorted m e.1 e.2) es := by
  induction hperm with
  | nil => intro _ es; rfl
  | cons x h ih =>
    intro hnd es
    simp only [List.foldl_cons]
    apply ih
    simp only [List.map_cons, List.nodup_cons] at hnd
    exact hnd.2
  | swap x y l =>
    intro hnd es
    simp only [List.foldl_cons]
    have hxy : y.1 ≠ x.1 := by
      simp only [List.map_cons, List.nodup_cons, List.mem_cons] at hnd
      intro h
      exact hnd.1 (Or.inl h)
    rw [insertSorted_comm y.1 y.2 x.1 x.2 hxy es]
  | trans h1 h2 ih1 ih2 =>
    intro hnd es
    rw [ih1 hnd es]
    apply ih2
    exact ((h1.map Prod.fst).nodup_iff).mp hnd

theorem content_perm (l1 l2 : List (Nat × Nat)) (hperm : l1.Perm l2)
    (hnd : (l1.map Prod.fst).Nodup) : content l1 = content l2 :=
  foldl_insert_perm l1 l2 hperm hnd []

/-- C2 counterexample: under the spec's stated default that a node left
with a single bucket child is not collapsed on deletion, the histories
`set 0, set 1, del 1` and `set 0` end at the same logical content but
flush to different root references. -/
theorem hamt_delete_history_breaks_determinism :
    applyOpsMap hist1 = applyOpsMap hist2 ∧
    flushRef (applyOpsTree cexCfg hist1) ≠ flushRef (applyOpsTree cexCfg hist2) := by
  constructor
  · simp [applyOpsMap, applyOpMap, hist1, hist2, insertSorted]
  · simp [applyOpsTree, applyOpTree, hist1, hist2, emptyRoot, cexCfg,
      setAt, setChildren, deleteAt, delChildren, insertSorted, mkNode, buildChild,
      childList, part, build, flushRef, serialize, serializeChildren]

/-- C2 (amended): for insertion-only histories, inserting the same
key-value pairs (pairwise-distinct keys) in any permutation yields,
after `flush`, the identical root reference.  Deletion histories are
excluded: the spec leaves single-child collapsing open and its stated
default refutes determinism for them (see the counterexample). -/
theorem hamt_insert_order_deterministic (c : HamtCfg)
    (hw : ∀ k d, c.slice k d < c.numSlots) (ht : 1 ≤ c.bucketSize)
    (l1 l2 : List (Nat × Nat)) (hperm : l1.Perm l2)
    (hnd : (l1.map Prod.fst).Nodup) :
    flushRef (setPairs c l1) = flushRef (setPairs c l2) := by
  unfold flushRef
  rw [setPairs_eq c hw ht l1, setPairs_eq c hw ht l2,
    content_perm l1 l2 hperm hnd]

/-- C2 witness at a concrete input. -/
theorem hamt_insert_order_deterministic_witness :
    flushRef (setPairs cexCfg [(1, 10), (2, 20)]) =
      flushRef (setPairs cexCfg [(2, 20), (1, 10)]) :=
  hamt_insert_order_deterministic cexCfg
    (by intro k d; simp only [cexCfg]; omega)
    (by simp [cexCfg])
    [(1, 10), (2, 20)] [(2, 20), (1, 10)]
    (by decide) (by decide)

end HamtModel
